import Mathlib

/-!
Verification development for the African-screening repository.

The definitions below are a shallow embedding of the screening core:

* `normalizeString`, `levenshteinDistance`, `calculateSimilarity`,
  `getBestMatchScore` embed `src/lib/sanctions-string-utils.ts`
  (shipped inside `src/lib/sanctions-service.ts` in this snapshot);
* `handleSearch` embeds the screening callback of the main component
  (`AfricaSanctions.tsx`), with its three observable control paths
  (silent return on an empty query, alert on an empty country list,
  and a computed result list) modelled as a sum type `ScreenOutcome`.

JavaScript numbers are modelled with exact arithmetic (`Nat`/`Int`/`Rat`);
strings are modelled as their lists of Unicode scalar values, which agrees
with JS UTF-16 semantics on every string the matching pipeline produces
(after the strip step the pipeline only handles ASCII and BMP whitespace).
-/

set_option maxHeartbeats 1000000
set_option maxRecDepth 8000

attribute [local semireducible] Rat.mul Rat.add Rat.sub Rat.inv

namespace AfricanScreening

/-! ### JS character classes

`isJsWhitespace` is the character set matched by the JS regex class `\s`
(which is also the set removed by `String.prototype.trim`). -/

def isJsWhitespace (c : Char) : Bool :=
  decide (c.toNat = 0x20 ∨ c.toNat = 0x09 ∨ c.toNat = 0x0A ∨ c.toNat = 0x0B ∨
    c.toNat = 0x0C ∨ c.toNat = 0x0D ∨ c.toNat = 0xA0 ∨ c.toNat = 0x1680 ∨
    (0x2000 ≤ c.toNat ∧ c.toNat ≤ 0x200A) ∨ c.toNat = 0x2028 ∨ c.toNat = 0x2029 ∨
    c.toNat = 0x202F ∨ c.toNat = 0x205F ∨ c.toNat = 0x3000 ∨ c.toNat = 0xFEFF)

/-- Characters removed by `.replace(/[̀-ͯ]/g, "")`. -/
def isCombiningMark (c : Char) : Bool :=
  decide (0x300 ≤ c.toNat ∧ c.toNat ≤ 0x36F)

/-- ASCII letters and digits, the non-whitespace part of `[^a-zA-Z0-9\s]`. -/
def isAsciiAlnum (c : Char) : Bool :=
  decide ((0x41 ≤ c.toNat ∧ c.toNat ≤ 0x5A) ∨ (0x61 ≤ c.toNat ∧ c.toNat ≤ 0x7A) ∨
    (0x30 ≤ c.toNat ∧ c.toNat ≤ 0x39))

/-- Characters kept by `.replace(/[^a-zA-Z0-9\s]/g, "")`. -/
def isKeptChar (c : Char) : Bool :=
  isAsciiAlnum c || isJsWhitespace c

/-- Canonical decomposition of one character, modelling
`String.prototype.normalize("NFD")`.  The table covers the Latin-1
supplement letters (the accented letters appearing in the sanctions data);
code points below U+00C0 have no canonical decomposition, and code points
outside the modelled table are kept unchanged. -/
def nfdChar (c : Char) : List Char :=
  if c.toNat < 0xC0 then [c]
  else match c.toNat with
  | 0xC0 => ['A', '̀']
  | 0xC1 => ['A', '́']
  | 0xC2 => ['A', '̂']
  | 0xC3 => ['A', '̃']
  | 0xC4 => ['A', '̈']
  | 0xC5 => ['A', '̊']
  | 0xC7 => ['C', '̧']
  | 0xC8 => ['E', '̀']
  | 0xC9 => ['E', '́']
  | 0xCA => ['E', '̂']
  | 0xCB => ['E', '̈']
  | 0xCC => ['I', '̀']
  | 0xCD => ['I', '́']
  | 0xCE => ['I', '̂']
  | 0xCF => ['I', '̈']
  | 0xD1 => ['N', '̃']
  | 0xD2 => ['O', '̀']
  | 0xD3 => ['O', '́']
  | 0xD4 => ['O', '̂']
  | 0xD5 => ['O', '̃']
  | 0xD6 => ['O', '̈']
  | 0xD9 => ['U', '̀']
  | 0xDA => ['U', '́']
  | 0xDB => ['U', '̂']
  | 0xDC => ['U', '̈']
  | 0xDD => ['Y', '́']
  | 0xE0 => ['a', '̀']
  | 0xE1 => ['a', '́']
  | 0xE2 => ['a', '̂']
  | 0xE3 => ['a', '̃']
  | 0xE4 => ['a', '̈']
  | 0xE5 => ['a', '̊']
  | 0xE7 => ['c', '̧']
  | 0xE8 => ['e', '̀']
  | 0xE9 => ['e', '́']
  | 0xEA => ['e', '̂']
  | 0xEB => ['e', '̈']
  | 0xEC => ['i', '̀']
  | 0xED => ['i', '́']
  | 0xEE => ['i', '̂']
  | 0xEF => ['i', '̈']
  | 0xF1 => ['n', '̃']
  | 0xF2 => ['o', '̀']
  | 0xF3 => ['o', '́']
  | 0xF4 => ['o', '̂']
  | 0xF5 => ['o', '̃']
  | 0xF6 => ['o', '̈']
  | 0xF9 => ['u', '̀']
  | 0xFA => ['u', '́']
  | 0xFB => ['u', '̂']
  | 0xFC => ['u', '̈']
  | 0xFD => ['y', '́']
  | 0xFF => ['y', '̈']
  | _ => [c]

/-- Model of `String.prototype.trim`: drop JS whitespace from both ends. -/
def jsTrim (l : List Char) : List Char :=
  ((l.dropWhile isJsWhitespace).reverse.dropWhile isJsWhitespace).reverse

/-- Worker for `jsSplitWs`.  `acc` is the reversed current token and
`prevWs` records whether the previous character was whitespace (a maximal
whitespace run produces a single separator, as the regex `\s+` does). -/
def splitWsAux : List Char → List Char → Bool → List (List Char)
  | [], acc, _ => [acc.reverse]
  | c :: rest, acc, prevWs =>
    if isJsWhitespace c then
      if prevWs then splitWsAux rest acc true
      else acc.reverse :: splitWsAux rest [] true
    else splitWsAux rest (c :: acc) false

/-- Model of `.split(/\s+/)`: split on maximal whitespace runs; the empty
string yields `[""]`, and leading/trailing whitespace yields empty tokens,
exactly as in JS. -/
def jsSplitWs (l : List Char) : List (List Char) :=
  splitWsAux l [] false

/-- Lexicographic comparison of two tokens by code point, the order used by
the default (comparator-less) `Array.prototype.sort` on the ASCII tokens the
pipeline produces. -/
def lexLe : List Char → List Char → Bool
  | [], _ => true
  | _ :: _, [] => false
  | a :: as, b :: bs =>
    if a.toNat < b.toNat then true
    else if b.toNat < a.toNat then false
    else lexLe as bs

/-- Insert a token into a `lexLe`-sorted token list, keeping it in front of
equal tokens (a stable insertion). -/
def insertToken (x : List Char) : List (List Char) → List (List Char)
  | [] => [x]
  | y :: ys => if lexLe x y then x :: y :: ys else y :: insertToken x ys

/-- Model of `.sort()` on the token array (insertion sort; any correct sort
yields the same token sequence up to equal elements, which are identical
strings here, so the join below is independent of the algorithm). -/
def sortTokens : List (List Char) → List (List Char)
  | [] => []
  | x :: xs => insertToken x (sortTokens xs)

/-- Model of `.join(" ")`. -/
def joinTokens : List (List Char) → List Char
  | [] => []
  | [t] => t
  | t :: t' :: ts => t ++ ' ' :: joinTokens (t' :: ts)

/-- Embedding of `normalizeString` from the source: NFD-decompose, drop
combining marks, drop everything that is not an ASCII letter, digit or
whitespace, lowercase, trim, split on whitespace runs, sort the tokens and
rejoin them with single spaces.  `Char.toLower` agrees with JS
`toLowerCase()` on every character that survives the strip step. -/
def normalizedTokens (str : String) : List (List Char) :=
  sortTokens (jsSplitWs (jsTrim
    ((((str.data.flatMap nfdChar).filter (fun c => !isCombiningMark c)).filter
      isKeptChar).map Char.toLower)))

def normalizeString (str : String) : String :=
  if str = "" then ""
  else String.mk (joinTokens (normalizedTokens str))

/-! ### Levenshtein distance

Embedding of `levenshteinDistance`: the DP matrix is built row by row
(`levRows` returns the final row `matrix[b.length]`), each row computed
left to right by `levRowAux` from the previous row and the running cell. -/

/-- Compute the entries `matrix[i][1..a.length]` of one DP row.  `prev` is
the tail of the previous row aligned so that its head is the diagonal
neighbour, and `left` is the entry just computed to the left. -/
def levRowAux (bc : Char) : List Char → List Nat → Nat → List Nat
  | [], _, _ => []
  | _ :: _, [], _ => []
  | ac :: as, pdiag :: ptail, left =>
    let cur := if bc = ac then pdiag
      else Nat.min (pdiag + 1) (Nat.min (left + 1) (ptail.headD 0 + 1))
    cur :: levRowAux bc as ptail cur

/-- Fold over the characters of `b`, producing the final DP row;
`i` is the index of the row stored in `prev`. -/
def levRows (aChars : List Char) : List Char → Nat → List Nat → List Nat
  | [], _, prev => prev
  | bc :: bs, i, prev => levRows aChars bs (i + 1) ((i + 1) :: levRowAux bc aChars prev (i + 1))

/-- Embedding of `levenshteinDistance(a, b)`: returns
`matrix[b.length][a.length]` where row 0 is `0, 1, ..., a.length`. -/
def levenshteinDistance (a b : String) : Nat :=
  (levRows a.data b.data 0 (List.range (a.data.length + 1))).getD a.data.length 0

/-! ### Similarity score -/

/-- Model of `Math.round` on an exact rational: round half toward positive
infinity, i.e. `⌊x + 1/2⌋`. -/
def jsRound (x : ℚ) : ℤ :=
  (x + 1 / 2).floor

/-- Embedding of `calculateSimilarity`: normalize both inputs, return 0 when
either normalized key is empty, 100 when they are equal, and otherwise the
rounded percentage `round((1 - distance / maxLength) * 100)`.

Modelling note: the source evaluates `(1 - distance / maxLength) * 100` in
IEEE binary64 before `Math.round`; this embedding evaluates it in exact
rational arithmetic.  At inputs whose exact value is a half-integer the
double evaluation can land on the other side of the boundary (for keys with
distance 17 and maximum length 40 the exact value 57.5 evaluates to
57.49999999999999 and the program rounds to 57, not 58), so properties that
hinge on the rounding rule at exact `.5` boundaries are outside this
model. -/
def calculateSimilarity (s1 s2 : String) : ℤ :=
  if normalizeString s1 = "" ∨ normalizeString s2 = "" then 0
  else if normalizeString s1 = normalizeString s2 then 100
  else if max (normalizeString s1).length (normalizeString s2).length = 0 then 100
  else jsRound ((1 -
    (levenshteinDistance (normalizeString s1) (normalizeString s2) : ℚ) /
    ((max (normalizeString s1).length (normalizeString s2).length : ℕ) : ℚ)) * 100)

/-! ### Best match selection -/

/-- The `matchedOn` discriminator of a match result. -/
inductive MatchedOn where
  | Name
  | Alias
deriving DecidableEq, Repr

/-- Return type of `getBestMatchScore`. -/
structure BestMatch where
  score : ℤ
  matchedOn : MatchedOn
deriving DecidableEq, Repr

/-- Embedding of `getBestMatchScore`: the best of the name score and the
alias scores (0 when there is no alias), attributed to `Alias` only when the
best alias score strictly exceeds the name score. -/
def maxAliasScore (query : String) (aliases : List String) : ℤ :=
  match aliases.map (fun al => calculateSimilarity query al) with
  | [] => 0
  | s :: ss => ss.foldl max s

def getBestMatchScore (query name : String) (aliases : List String) : BestMatch :=
  { score := max (calculateSimilarity query name) (maxAliasScore query aliases)
    matchedOn :=
      if calculateSimilarity query name < maxAliasScore query aliases then .Alias else .Name }

/-! ### Data model of the screening component -/

/-- The `TargetType` union from `sanctions-service.ts`. -/
inductive TargetType where
  | Person
  | Entity
  | All
deriving DecidableEq, Repr

/-- The `SanctionedPerson` interface. -/
structure SanctionedPerson where
  id : ℤ := 0
  source_country : String := ""
  source_id : Option String := none
  source_reference : Option String := none
  last_name : Option String := none
  first_name : Option String := none
  full_name : String := ""
  aliases : List String := []
  gender : Option String := none
  date_of_birth : Option String := none
  date_of_birth_approx : Bool := false
  place_of_birth : Option String := none
  nationality : Option String := none
  profession : Option String := none
  phone_numbers : List String := []
  designation_date : Option String := none
  end_date : Option String := none
  designation_reason : Option String := none
  notes : Option String := none
  created_at : String := ""
  updated_at : String := ""
deriving DecidableEq, Repr

/-- The `SanctionedEntity` interface. -/
structure SanctionedEntity where
  id : ℤ := 0
  source_country : String := ""
  source_reference : Option String := none
  entity_type : Option String := none
  name : String := ""
  aliases : List String := []
  leader : Option String := none
  deputy_leader : Option String := none
  coordinator_burkina : Option String := none
  creation_date : Option String := none
  creation_place : Option String := none
  designation_date : Option String := none
  end_date : Option String := none
  bf_faction_leaders : List String := []
  bf_zone_leaders : List String := []
  affiliated_groups : List String := []
  responsible_gourma_burkina : Option String := none
  created_at : String := ""
  updated_at : String := ""
deriving DecidableEq, Repr

/-- The discriminated `item` payload of a `MatchResult`. -/
inductive MatchItem where
  | person (item : SanctionedPerson)
  | entity (item : SanctionedEntity)
deriving DecidableEq, Repr

/-- The `MatchResult` union: a matched subject together with its score and
the field that produced it. -/
structure MatchResult where
  item : MatchItem
  score : ℤ
  matchedOn : MatchedOn
deriving DecidableEq, Repr

/-- The `SearchParams` record driving one screening call. -/
structure SearchParams where
  query : String := ""
  targetType : TargetType := .All
  sourceCountries : List String := []
  fuzzyThreshold : ℤ := 70
deriving DecidableEq, Repr

/-- Observable outcome of the `handleSearch` callback: an empty (trimmed)
query returns before any scan without touching the result state; an empty
country selection alerts the user and returns before any scan; otherwise the
sorted match list is stored. -/
inductive ScreenOutcome where
  | invalidQuery
  | noListsSelected
  | results (found : List MatchResult)
deriving DecidableEq, Repr

/-! ### The screening scan -/

/-- Person loop of `handleSearch`: skip subjects outside the selected
countries, score the rest, and keep those reaching the threshold. -/
def scanPersons (params : SearchParams) (persons : List SanctionedPerson) : List MatchResult :=
  persons.filterMap fun person =>
    if params.sourceCountries.contains person.source_country then
      if params.fuzzyThreshold ≤ (getBestMatchScore params.query person.full_name person.aliases).score then
        some { item := MatchItem.person person
               score := (getBestMatchScore params.query person.full_name person.aliases).score
               matchedOn := (getBestMatchScore params.query person.full_name person.aliases).matchedOn }
      else none
    else none

/-- Entity loop of `handleSearch`, identical to the person loop but matching
on `entity.name`. -/
def scanEntities (params : SearchParams) (entities : List SanctionedEntity) : List MatchResult :=
  entities.filterMap fun entity =>
    if params.sourceCountries.contains entity.source_country then
      if params.fuzzyThreshold ≤ (getBestMatchScore params.query entity.name entity.aliases).score then
        some { item := MatchItem.entity entity
               score := (getBestMatchScore params.query entity.name entity.aliases).score
               matchedOn := (getBestMatchScore params.query entity.name entity.aliases).matchedOn }
      else none
    else none

/-- The unsorted hit list: persons are scanned when the target filter is
`All` or `Person`, then entities when it is `All` or `Entity`. -/
def scanHits (params : SearchParams) (persons : List SanctionedPerson)
    (entities : List SanctionedEntity) : List MatchResult :=
  (if params.targetType = .All ∨ params.targetType = .Person
    then scanPersons params persons else [])
  ++ (if params.targetType = .All ∨ params.targetType = .Entity
    then scanEntities params entities else [])

/-- Stable insertion of a result into a list sorted by descending score: the
inserted element (which comes earlier in scan order) goes in front of every
element with an equal or smaller score. -/
def insertByScoreDesc (x : MatchResult) : List MatchResult → List MatchResult
  | [] => [x]
  | y :: ys => if x.score ≥ y.score then x :: y :: ys else y :: insertByScoreDesc x ys

/-- Model of `results.sort((a, b) => b.score - a.score)`.  The JS sort is
stable and its comparator is a total preorder on scores, so its output is
exactly the stable descending-by-score ordering computed by this insertion
sort. -/
def sortByScoreDesc : List MatchResult → List MatchResult
  | [] => []
  | x :: xs => insertByScoreDesc x (sortByScoreDesc xs)

/-- Embedding of the `handleSearch` callback: validate the query, then the
country selection, then scan, filter by threshold and sort descending by
score. -/
def handleSearch (params : SearchParams) (persons : List SanctionedPerson)
    (entities : List SanctionedEntity) : ScreenOutcome :=
  if jsTrim params.query.data = [] then .invalidQuery
  else if params.sourceCountries.length = 0 then .noListsSelected
  else .results (sortByScoreDesc (scanHits params persons entities))

/-! ### Bounds on the DP rows

Every entry of DP row `i` is at most `max i j` for its column `j`; this
gives `levenshteinDistance a b ≤ max |a| |b|`, which in turn bounds the
similarity score into `[0, 100]`. -/

theorem levRowAux_getD_le (bc : Char) (as : List Char) :
    ∀ (prev : List Nat) (left i j₀ : Nat),
      (∀ k, prev.getD k 0 ≤ max i (j₀ + k)) →
      ∀ k, (levRowAux bc as prev left).getD k 0 ≤ max (i + 1) (j₀ + 1 + k) := by
  induction as with
  | nil =>
    intro prev left i j₀ hp k
    simp [levRowAux]
  | cons ac as ih =>
    intro prev left i j₀ hp k
    match prev with
    | [] => simp [levRowAux]
    | pdiag :: ptail =>
      have h0 : pdiag ≤ max i j₀ := by
        have := hp 0
        simpa using this
      have hstep : max i j₀ + 1 ≤ max (i + 1) (j₀ + 1) := by omega
      have hcur : (if bc = ac then pdiag
          else Nat.min (pdiag + 1) (Nat.min (left + 1) (ptail.headD 0 + 1)))
            ≤ max (i + 1) (j₀ + 1) := by
        split
        · exact le_trans h0 (by omega)
        · exact le_trans (Nat.min_le_left _ _) (le_trans (Nat.add_le_add_right h0 1) hstep)
      cases k with
      | zero =>
        simpa [levRowAux] using hcur
      | succ k =>
        have hpt : ∀ k, ptail.getD k 0 ≤ max i (j₀ + 1 + k) := by
          intro k
          have := hp (k + 1)
          simp only [List.getD_cons_succ] at this
          have harith : j₀ + (k + 1) = j₀ + 1 + k := by omega
          rwa [harith] at this
        have := ih ptail
          (if bc = ac then pdiag
            else Nat.min (pdiag + 1) (Nat.min (left + 1) (ptail.headD 0 + 1)))
          i (j₀ + 1) hpt k
        simp only [levRowAux, List.getD_cons_succ]
        have harith : j₀ + 1 + 1 + k = j₀ + 1 + (k + 1) := by omega
        rwa [harith] at this

theorem levRows_getD_le (aChars : List Char) :
    ∀ (bs : List Char) (i : Nat) (prev : List Nat),
      (∀ k, prev.getD k 0 ≤ max i k) →
      ∀ k, (levRows aChars bs i prev).getD k 0 ≤ max (i + bs.length) k := by
  intro bs
  induction bs with
  | nil =>
    intro i prev hp k
    simpa [levRows] using hp k
  | cons bc bs ih =>
    intro i prev hp k
    have hrow : ∀ k, ((i + 1) :: levRowAux bc aChars prev (i + 1)).getD k 0 ≤ max (i + 1) k := by
      intro k
      cases k with
      | zero =>
        simp only [List.getD_cons_zero]
        omega
      | succ k =>
        simp only [List.getD_cons_succ]
        have := levRowAux_getD_le bc aChars prev (i + 1) i 0
          (fun k => by rw [Nat.zero_add]; exact hp k) k
        have harith : 0 + 1 + k = k + 1 := by omega
        rwa [harith] at this
    have := ih (i + 1) _ hrow k
    simp only [levRows, List.length_cons]
    have harith : i + 1 + bs.length = i + (bs.length + 1) := by omega
    rwa [harith] at this

theorem levenshteinDistance_le (a b : String) :
    levenshteinDistance a b ≤ max a.data.length b.data.length := by
  unfold levenshteinDistance
  have hr : ∀ n k, (List.range n).getD k 0 ≤ k := by
    intro n k
    rcases Nat.lt_or_ge k n with h | h
    · rw [List.getD_eq_getElem?_getD, List.getElem?_range h, Option.getD_some]
    · rw [List.getD_eq_getElem?_getD, List.getElem?_eq_none (by simpa using h),
        Option.getD_none]
      exact Nat.zero_le k
  have h0 : ∀ k, (List.range (a.data.length + 1)).getD k 0 ≤ max 0 k := by
    intro k
    exact le_trans (hr _ k) (le_max_right 0 k)
  have := levRows_getD_le a.data b.data 0 _ h0 a.data.length
  have harith : max (0 + b.data.length) a.data.length = max a.data.length b.data.length := by
    omega
  rwa [harith] at this

/-! ### Elementary facts about the similarity score -/

theorem string_length_eq (s : String) : s.length = s.data.length := rfl

theorem string_eq_empty_iff (s : String) : s = "" ↔ s.data = [] := by
  constructor
  · intro h; rw [h]
  · intro h
    cases s with
    | mk data => cases h; rfl

theorem jsRound_eq_intFloor (x : ℚ) : jsRound x = ⌊x + 1 / 2⌋ := by
  unfold jsRound
  rw [Rat.floor_def', Rat.floor_def]

theorem jsRound_nonneg {x : ℚ} (h : 0 ≤ x) : 0 ≤ jsRound x := by
  rw [jsRound_eq_intFloor]
  have : ((0 : ℤ) : ℚ) ≤ x + 1 / 2 := by push_cast; linarith
  exact Int.le_floor.mpr this

theorem jsRound_le_100 {x : ℚ} (h : x ≤ 100) : jsRound x ≤ 100 := by
  rw [jsRound_eq_intFloor]
  have hlt : x + 1 / 2 < ((101 : ℤ) : ℚ) := by push_cast; linarith
  have := Int.floor_lt.mpr hlt
  omega

theorem levenshteinDistance_le_len (a b : String) :
    levenshteinDistance a b ≤ max a.length b.length :=
  levenshteinDistance_le a b

theorem jsRound_formula_nonneg (d m : Nat) (hm : m ≠ 0) (hle : d ≤ m) :
    0 ≤ jsRound ((1 - (d : ℚ) / (m : ℚ)) * 100) := by
  apply jsRound_nonneg
  have hmq : (0 : ℚ) < (m : ℚ) := by exact_mod_cast Nat.pos_of_ne_zero hm
  have hcast : (d : ℚ) ≤ (m : ℚ) := by exact_mod_cast hle
  have hdiv : (d : ℚ) / (m : ℚ) ≤ 1 := by rw [div_le_one hmq]; exact hcast
  nlinarith

theorem jsRound_formula_le_100 (d m : Nat) (hm : m ≠ 0) :
    jsRound ((1 - (d : ℚ) / (m : ℚ)) * 100) ≤ 100 := by
  apply jsRound_le_100
  have hmq : (0 : ℚ) < (m : ℚ) := by exact_mod_cast Nat.pos_of_ne_zero hm
  have hdiv : (0 : ℚ) ≤ (d : ℚ) / (m : ℚ) := by positivity
  nlinarith

theorem calculateSimilarity_nonneg (s1 s2 : String) : 0 ≤ calculateSimilarity s1 s2 := by
  unfold calculateSimilarity
  split
  next => omega
  next =>
    split
    next => omega
    next h1 h2 =>
      split
      next => omega
      next hm =>
        exact jsRound_formula_nonneg _ _ hm
          (levenshteinDistance_le_len (normalizeString s1) (normalizeString s2))

theorem calculateSimilarity_le_100 (s1 s2 : String) : calculateSimilarity s1 s2 ≤ 100 := by
  unfold calculateSimilarity
  split
  next => omega
  next =>
    split
    next => omega
    next h1 h2 =>
      split
      next => omega
      next hm =>
        exact jsRound_formula_le_100 _ _ hm

theorem string_length_ne_zero {s : String} (h : s ≠ "") : s.length ≠ 0 := by
  intro h0
  apply h
  rw [string_eq_empty_iff]
  rw [string_length_eq] at h0
  exact List.length_eq_zero.mp h0

/-! ### Claims about the similarity scorer -/

/-- C5 (counterexample): the string `"."` is non-empty, yet its
self-similarity is 0, because it normalizes to the empty key; the claim
`similarity(s, s) = 100` for every non-empty `s` is therefore false. -/
theorem claim_C5_counterexample :
    ("." : String) ≠ "" ∧ calculateSimilarity "." "." = 0 := by
  constructor
  · decide
  · decide

/-- C5 (amended): for every string whose normalized key is non-empty,
the self-similarity is exactly 100. -/
theorem claim_C5 (s : String) (h : normalizeString s ≠ "") :
    calculateSimilarity s s = 100 := by
  unfold calculateSimilarity
  rw [if_neg (by simp [h]), if_pos rfl]

/-- C5 (witness): the amended statement applied to the concrete input
`"Bande Hama"`, whose normalized key is non-empty. -/
theorem claim_C5_witness :
    normalizeString "Bande Hama" ≠ "" ∧ calculateSimilarity "Bande Hama" "Bande Hama" = 100 :=
  ⟨by decide, claim_C5 "Bande Hama" (by decide)⟩

/-- C6: similarity against the empty string is 0 on either side, also when
both sides are empty, and in particular an empty alias can never produce a
score of 100. -/
theorem claim_C6 (s : String) :
    calculateSimilarity s "" = 0 ∧ calculateSimilarity "" s = 0 ∧
    calculateSimilarity s "" ≠ 100 := by
  have hempty : normalizeString "" = "" := by decide
  have h1 : calculateSimilarity s "" = 0 := by
    unfold calculateSimilarity
    rw [if_pos (Or.inr hempty)]
  have h2 : calculateSimilarity "" s = 0 := by
    unfold calculateSimilarity
    rw [if_pos (Or.inl hempty)]
  exact ⟨h1, h2, by omega⟩

/-! ### Claims about the match selector -/

theorem foldl_max_eq_foldr (ss : List ℤ) : ∀ s : ℤ, 0 ≤ s →
    ss.foldl max s = max s (ss.foldr max 0) := by
  induction ss with
  | nil =>
    intro s hs
    simp [max_eq_left hs]
  | cons x ss ih =>
    intro s hs
    simp only [List.foldl_cons, List.foldr_cons]
    rw [ih (max s x) (le_trans hs (le_max_left s x)), ← max_assoc]

theorem maxAliasScore_eq_foldr (query : String) (aliases : List String) :
    maxAliasScore query aliases
      = (aliases.map (fun al => calculateSimilarity query al)).foldr max 0 := by
  cases aliases with
  | nil => rfl
  | cons a as =>
    simp only [maxAliasScore, List.map_cons, List.foldr_cons]
    exact foldl_max_eq_foldr _ _ (calculateSimilarity_nonneg query a)

/-- C2: the best-match score is the maximum of the name similarity and the
maximum alias similarity (0 for an empty alias list), and `matchedOn` is
`Alias` exactly when the best alias score strictly exceeds the name score;
the no-alias case and ties resolve to `Name`. -/
theorem claim_C2 (query name : String) (aliases : List String) :
    (getBestMatchScore query name aliases).score
      = max (calculateSimilarity query name)
          ((aliases.map (fun al => calculateSimilarity query al)).foldr max 0)
    ∧ ((getBestMatchScore query name aliases).matchedOn = MatchedOn.Alias
        ↔ calculateSimilarity query name
            < (aliases.map (fun al => calculateSimilarity query al)).foldr max 0)
    ∧ (aliases = [] → (getBestMatchScore query name aliases).matchedOn = MatchedOn.Name)
    ∧ ((aliases.map (fun al => calculateSimilarity query al)).foldr max 0
          = calculateSimilarity query name
        → (getBestMatchScore query name aliases).matchedOn = MatchedOn.Name) := by
  rw [← maxAliasScore_eq_foldr]
  refine ⟨rfl, ?_, ?_, ?_⟩
  · show (if calculateSimilarity query name < maxAliasScore query aliases
      then MatchedOn.Alias else MatchedOn.Name) = MatchedOn.Alias ↔ _
    split
    next h => simp [h]
    next h => simp [h]
  · intro h
    subst h
    show (if calculateSimilarity query name < maxAliasScore query [] then MatchedOn.Alias
      else MatchedOn.Name) = MatchedOn.Name
    rw [if_neg]
    simp only [maxAliasScore, List.map_nil]
    exact not_lt.mpr (calculateSimilarity_nonneg query name)
  · intro h
    show (if calculateSimilarity query name < maxAliasScore query aliases then MatchedOn.Alias
      else MatchedOn.Name) = MatchedOn.Name
    rw [if_neg]
    rw [h]
    exact lt_irrefl _


/-! ### A perfect score without an exact key match (C10)

For the witness the two inputs are runs of 200 and 201 copies of `a`.
Because every character comparison in the DP is an equality, each DP row is
the row index consed onto a prefix of the previous row, which yields a
closed form for the final row and avoids evaluating the 200 x 201 table.
-/

theorem levRowAux_const (bc : Char) : ∀ (as : List Char) (prev : List Nat) (left : Nat),
    (∀ c ∈ as, bc = c) → levRowAux bc as prev left = prev.take as.length := by
  intro as
  induction as with
  | nil =>
    intro prev left _
    cases prev <;> rfl
  | cons ac as ih =>
    intro prev left h
    match prev with
    | [] => rfl
    | pdiag :: ptail =>
      have hbc : bc = ac := h ac (by simp)
      simp only [levRowAux, if_pos hbc, List.length_cons, List.take_succ_cons]
      rw [ih ptail pdiag (fun c hc => h c (by simp [hc]))]

theorem levRows_all_eq (aChars : List Char) (ch : Char) (ha : ∀ c ∈ aChars, ch = c) :
    ∀ (bs : List Char) (i : Nat), (∀ c ∈ bs, c = ch) →
      i + bs.length ≤ aChars.length + 1 →
      levRows aChars bs i
          ((List.range' 1 i).reverse ++ List.range (aChars.length + 1 - i))
        = (List.range' 1 (i + bs.length)).reverse
          ++ List.range (aChars.length + 1 - (i + bs.length)) := by
  intro bs
  induction bs with
  | nil =>
    intro i _ _
    simp [levRows]
  | cons bc bs ih =>
    intro i hb hle
    have hbc : ∀ c ∈ aChars, bc = c := by
      intro c hc
      rw [hb bc (by simp)]
      exact ha c hc
    have hi : i ≤ aChars.length := by
      simp only [List.length_cons] at hle
      omega
    simp only [levRows]
    rw [levRowAux_const bc aChars _ _ hbc]
    rw [List.take_append_eq_append_take]
    rw [List.take_of_length_le (by simpa using hi)]
    simp only [List.length_reverse, List.length_range']
    rw [List.take_range]
    have hmin : min (aChars.length - i) (aChars.length + 1 - i) = aChars.length - i := by
      omega
    rw [hmin]
    have hprev : (i + 1) :: ((List.range' 1 i).reverse ++ List.range (aChars.length - i))
        = (List.range' 1 (i + 1)).reverse ++ List.range (aChars.length + 1 - (i + 1)) := by
      rw [List.range'_concat, List.reverse_concat]
      have h1 : 1 + 1 * i = i + 1 := by omega
      have h2 : aChars.length + 1 - (i + 1) = aChars.length - i := by omega
      rw [h1, h2, List.cons_append]
    rw [hprev]
    simp only [List.length_cons]
    have harith : i + (bs.length + 1) = (i + 1) + bs.length := by omega
    rw [harith]
    exact ih (i + 1) (fun c hc => hb c (by simp [hc]))
      (by simp only [List.length_cons] at hle; omega)

/-- C10: two strings whose normalized keys are non-empty and unequal, yet
whose similarity is 100: runs of 200 and 201 copies of the letter `a`
(distance 1, maximum key length 201, and `(1 - 1/201) * 100` rounds up to
100); a reported score of 100 therefore does not guarantee an exact match
after normalization. -/
theorem claim_C10 :
    normalizeString "aaaaaaaaaaaaaaaaaaaaaaaaaaaaaaaaaaaaaaaaaaaaaaaaaaaaaaaaaaaaaaaaaaaaaaaaaaaaaaaaaaaaaaaaaaaaaaaaaaaaaaaaaaaaaaaaaaaaaaaaaaaaaaaaaaaaaaaaaaaaaaaaaaaaaaaaaaaaaaaaaaaaaaaaaaaaaaaaaaaaaaaaaaaaaaaaaaaaaaaa" ≠ "" ∧ normalizeString "aaaaaaaaaaaaaaaaaaaaaaaaaaaaaaaaaaaaaaaaaaaaaaaaaaaaaaaaaaaaaaaaaaaaaaaaaaaaaaaaaaaaaaaaaaaaaaaaaaaaaaaaaaaaaaaaaaaaaaaaaaaaaaaaaaaaaaaaaaaaaaaaaaaaaaaaaaaaaaaaaaaaaaaaaaaaaaaaaaaaaaaaaaaaaaaaaaaaaaaaa" ≠ "" ∧
    normalizeString "aaaaaaaaaaaaaaaaaaaaaaaaaaaaaaaaaaaaaaaaaaaaaaaaaaaaaaaaaaaaaaaaaaaaaaaaaaaaaaaaaaaaaaaaaaaaaaaaaaaaaaaaaaaaaaaaaaaaaaaaaaaaaaaaaaaaaaaaaaaaaaaaaaaaaaaaaaaaaaaaaaaaaaaaaaaaaaaaaaaaaaaaaaaaaaaaaaaaaaaa" ≠ normalizeString "aaaaaaaaaaaaaaaaaaaaaaaaaaaaaaaaaaaaaaaaaaaaaaaaaaaaaaaaaaaaaaaaaaaaaaaaaaaaaaaaaaaaaaaaaaaaaaaaaaaaaaaaaaaaaaaaaaaaaaaaaaaaaaaaaaaaaaaaaaaaaaaaaaaaaaaaaaaaaaaaaaaaaaaaaaaaaaaaaaaaaaaaaaaaaaaaaaaaaaaaa" ∧
    calculateSimilarity "aaaaaaaaaaaaaaaaaaaaaaaaaaaaaaaaaaaaaaaaaaaaaaaaaaaaaaaaaaaaaaaaaaaaaaaaaaaaaaaaaaaaaaaaaaaaaaaaaaaaaaaaaaaaaaaaaaaaaaaaaaaaaaaaaaaaaaaaaaaaaaaaaaaaaaaaaaaaaaaaaaaaaaaaaaaaaaaaaaaaaaaaaaaaaaaaaaaaaaaa" "aaaaaaaaaaaaaaaaaaaaaaaaaaaaaaaaaaaaaaaaaaaaaaaaaaaaaaaaaaaaaaaaaaaaaaaaaaaaaaaaaaaaaaaaaaaaaaaaaaaaaaaaaaaaaaaaaaaaaaaaaaaaaaaaaaaaaaaaaaaaaaaaaaaaaaaaaaaaaaaaaaaaaaaaaaaaaaaaaaaaaaaaaaaaaaaaaaaaaaaaa" = 100 := by
  have hA : normalizeString "aaaaaaaaaaaaaaaaaaaaaaaaaaaaaaaaaaaaaaaaaaaaaaaaaaaaaaaaaaaaaaaaaaaaaaaaaaaaaaaaaaaaaaaaaaaaaaaaaaaaaaaaaaaaaaaaaaaaaaaaaaaaaaaaaaaaaaaaaaaaaaaaaaaaaaaaaaaaaaaaaaaaaaaaaaaaaaaaaaaaaaaaaaaaaaaaaaaaaaaa" = "aaaaaaaaaaaaaaaaaaaaaaaaaaaaaaaaaaaaaaaaaaaaaaaaaaaaaaaaaaaaaaaaaaaaaaaaaaaaaaaaaaaaaaaaaaaaaaaaaaaaaaaaaaaaaaaaaaaaaaaaaaaaaaaaaaaaaaaaaaaaaaaaaaaaaaaaaaaaaaaaaaaaaaaaaaaaaaaaaaaaaaaaaaaaaaaaaaaaaaaa" := by decide
  have hB : normalizeString "aaaaaaaaaaaaaaaaaaaaaaaaaaaaaaaaaaaaaaaaaaaaaaaaaaaaaaaaaaaaaaaaaaaaaaaaaaaaaaaaaaaaaaaaaaaaaaaaaaaaaaaaaaaaaaaaaaaaaaaaaaaaaaaaaaaaaaaaaaaaaaaaaaaaaaaaaaaaaaaaaaaaaaaaaaaaaaaaaaaaaaaaaaaaaaaaaaaaaaaaa" = "aaaaaaaaaaaaaaaaaaaaaaaaaaaaaaaaaaaaaaaaaaaaaaaaaaaaaaaaaaaaaaaaaaaaaaaaaaaaaaaaaaaaaaaaaaaaaaaaaaaaaaaaaaaaaaaaaaaaaaaaaaaaaaaaaaaaaaaaaaaaaaaaaaaaaaaaaaaaaaaaaaaaaaaaaaaaaaaaaaaaaaaaaaaaaaaaaaaaaaaaa" := by decide
  have hAne : ("aaaaaaaaaaaaaaaaaaaaaaaaaaaaaaaaaaaaaaaaaaaaaaaaaaaaaaaaaaaaaaaaaaaaaaaaaaaaaaaaaaaaaaaaaaaaaaaaaaaaaaaaaaaaaaaaaaaaaaaaaaaaaaaaaaaaaaaaaaaaaaaaaaaaaaaaaaaaaaaaaaaaaaaaaaaaaaaaaaaaaaaaaaaaaaaaaaaaaaaa" : String) ≠ "" := by decide
  have hBne : ("aaaaaaaaaaaaaaaaaaaaaaaaaaaaaaaaaaaaaaaaaaaaaaaaaaaaaaaaaaaaaaaaaaaaaaaaaaaaaaaaaaaaaaaaaaaaaaaaaaaaaaaaaaaaaaaaaaaaaaaaaaaaaaaaaaaaaaaaaaaaaaaaaaaaaaaaaaaaaaaaaaaaaaaaaaaaaaaaaaaaaaaaaaaaaaaaaaaaaaaaa" : String) ≠ "" := by decide
  have hABne : ("aaaaaaaaaaaaaaaaaaaaaaaaaaaaaaaaaaaaaaaaaaaaaaaaaaaaaaaaaaaaaaaaaaaaaaaaaaaaaaaaaaaaaaaaaaaaaaaaaaaaaaaaaaaaaaaaaaaaaaaaaaaaaaaaaaaaaaaaaaaaaaaaaaaaaaaaaaaaaaaaaaaaaaaaaaaaaaaaaaaaaaaaaaaaaaaaaaaaaaaa" : String) ≠ "aaaaaaaaaaaaaaaaaaaaaaaaaaaaaaaaaaaaaaaaaaaaaaaaaaaaaaaaaaaaaaaaaaaaaaaaaaaaaaaaaaaaaaaaaaaaaaaaaaaaaaaaaaaaaaaaaaaaaaaaaaaaaaaaaaaaaaaaaaaaaaaaaaaaaaaaaaaaaaaaaaaaaaaaaaaaaaaaaaaaaaaaaaaaaaaaaaaaaaaaa" := by decide
  have hAdata : ("aaaaaaaaaaaaaaaaaaaaaaaaaaaaaaaaaaaaaaaaaaaaaaaaaaaaaaaaaaaaaaaaaaaaaaaaaaaaaaaaaaaaaaaaaaaaaaaaaaaaaaaaaaaaaaaaaaaaaaaaaaaaaaaaaaaaaaaaaaaaaaaaaaaaaaaaaaaaaaaaaaaaaaaaaaaaaaaaaaaaaaaaaaaaaaaaaaaaaaaa" : String).data.length = 200 := by decide
  have hBdata : ("aaaaaaaaaaaaaaaaaaaaaaaaaaaaaaaaaaaaaaaaaaaaaaaaaaaaaaaaaaaaaaaaaaaaaaaaaaaaaaaaaaaaaaaaaaaaaaaaaaaaaaaaaaaaaaaaaaaaaaaaaaaaaaaaaaaaaaaaaaaaaaaaaaaaaaaaaaaaaaaaaaaaaaaaaaaaaaaaaaaaaaaaaaaaaaaaaaaaaaaaa" : String).data.length = 201 := by decide
  have hlev : levenshteinDistance "aaaaaaaaaaaaaaaaaaaaaaaaaaaaaaaaaaaaaaaaaaaaaaaaaaaaaaaaaaaaaaaaaaaaaaaaaaaaaaaaaaaaaaaaaaaaaaaaaaaaaaaaaaaaaaaaaaaaaaaaaaaaaaaaaaaaaaaaaaaaaaaaaaaaaaaaaaaaaaaaaaaaaaaaaaaaaaaaaaaaaaaaaaaaaaaaaaaaaaaa" "aaaaaaaaaaaaaaaaaaaaaaaaaaaaaaaaaaaaaaaaaaaaaaaaaaaaaaaaaaaaaaaaaaaaaaaaaaaaaaaaaaaaaaaaaaaaaaaaaaaaaaaaaaaaaaaaaaaaaaaaaaaaaaaaaaaaaaaaaaaaaaaaaaaaaaaaaaaaaaaaaaaaaaaaaaaaaaaaaaaaaaaaaaaaaaaaaaaaaaaaa" = 1 := by
    unfold levenshteinDistance
    have h := levRows_all_eq ("aaaaaaaaaaaaaaaaaaaaaaaaaaaaaaaaaaaaaaaaaaaaaaaaaaaaaaaaaaaaaaaaaaaaaaaaaaaaaaaaaaaaaaaaaaaaaaaaaaaaaaaaaaaaaaaaaaaaaaaaaaaaaaaaaaaaaaaaaaaaaaaaaaaaaaaaaaaaaaaaaaaaaaaaaaaaaaaaaaaaaaaaaaaaaaaaaaaaaaaa" : String).data 'a' (by decide)
      ("aaaaaaaaaaaaaaaaaaaaaaaaaaaaaaaaaaaaaaaaaaaaaaaaaaaaaaaaaaaaaaaaaaaaaaaaaaaaaaaaaaaaaaaaaaaaaaaaaaaaaaaaaaaaaaaaaaaaaaaaaaaaaaaaaaaaaaaaaaaaaaaaaaaaaaaaaaaaaaaaaaaaaaaaaaaaaaaaaaaaaaaaaaaaaaaaaaaaaaaaa" : String).data 0 (by decide) (by rw [hAdata, hBdata])
    simp only [List.range'_zero, List.reverse_nil, List.nil_append, Nat.zero_add,
      Nat.sub_zero, hAdata, hBdata] at h
    rw [hAdata, h]
    all_goals decide
  refine ⟨by rw [hA]; exact hAne, by rw [hB]; exact hBne,
    by rw [hA, hB]; exact hABne, ?_⟩
  unfold calculateSimilarity
  rw [hA, hB]
  rw [if_neg (by simp [hAne, hBne]), if_neg hABne, hlev]
  have hmax : max ("aaaaaaaaaaaaaaaaaaaaaaaaaaaaaaaaaaaaaaaaaaaaaaaaaaaaaaaaaaaaaaaaaaaaaaaaaaaaaaaaaaaaaaaaaaaaaaaaaaaaaaaaaaaaaaaaaaaaaaaaaaaaaaaaaaaaaaaaaaaaaaaaaaaaaaaaaaaaaaaaaaaaaaaaaaaaaaaaaaaaaaaaaaaaaaaaaaaaaaaa" : String).length ("aaaaaaaaaaaaaaaaaaaaaaaaaaaaaaaaaaaaaaaaaaaaaaaaaaaaaaaaaaaaaaaaaaaaaaaaaaaaaaaaaaaaaaaaaaaaaaaaaaaaaaaaaaaaaaaaaaaaaaaaaaaaaaaaaaaaaaaaaaaaaaaaaaaaaaaaaaaaaaaaaaaaaaaaaaaaaaaaaaaaaaaaaaaaaaaaaaaaaaaaa" : String).length = 201 := by decide
  rw [hmax]
  rw [if_neg (show (201 : ℕ) ≠ 0 by omega)]
  decide

/-! ### Claims about the validation paths of the screening call -/

/-- C8: a screening call whose query text is empty or whitespace-only (its
JS-trimmed text is empty) takes the distinct invalid-query path before any
scan and never produces a result list, so it is never treated as matching
everything. -/
theorem claim_C8 (params : SearchParams) (persons : List SanctionedPerson)
    (entities : List SanctionedEntity) (h : jsTrim params.query.data = []) :
    handleSearch params persons entities = ScreenOutcome.invalidQuery ∧
    ∀ found, handleSearch params persons entities ≠ ScreenOutcome.results found := by
  have h1 : handleSearch params persons entities = ScreenOutcome.invalidQuery := by
    unfold handleSearch
    rw [if_pos h]
  refine ⟨h1, ?_⟩
  intro found hf
  rw [h1] at hf
  cases hf

/-- C8 (witness): the theorem applied to a whitespace-only query with a
non-empty country selection and a non-empty dataset. -/
theorem claim_C8_witness :
    jsTrim (" \t " : String).data = [] ∧
    (handleSearch { query := " \t ", sourceCountries := ["BF", "ML"] }
        [{ full_name := "BANDE Hama", source_country := "BF" }] []
      = ScreenOutcome.invalidQuery ∧
    ∀ found, handleSearch { query := " \t ", sourceCountries := ["BF", "ML"] }
        [{ full_name := "BANDE Hama", source_country := "BF" }] []
      ≠ ScreenOutcome.results found) :=
  ⟨by decide, claim_C8 _ _ _ (by decide)⟩

/-- C4 (counterexample): a call whose country filter is empty but whose
query text is also empty returns on the invalid-query path, not the
no-lists-selected path, because the query is validated first; so not every
call with an empty country filter produces the NoListsSelected outcome. -/
theorem claim_C4_counterexample :
    ({ query := "", sourceCountries := [] } : SearchParams).sourceCountries = [] ∧
    handleSearch { query := "", sourceCountries := [] } [] []
      ≠ ScreenOutcome.noListsSelected := by
  constructor
  · rfl
  · decide

/-- C4 (amended): for every screening call with non-empty trimmed query
text whose country filter is empty, the call produces the distinct
no-lists-selected outcome before scanning any subject, and that outcome is
different from every result-list outcome (in particular from an empty
result list). -/
theorem claim_C4 (params : SearchParams) (persons : List SanctionedPerson)
    (entities : List SanctionedEntity)
    (hq : jsTrim params.query.data ≠ [])
    (hc : params.sourceCountries = []) :
    handleSearch params persons entities = ScreenOutcome.noListsSelected ∧
    ∀ found, ScreenOutcome.noListsSelected ≠ ScreenOutcome.results found := by
  constructor
  · unfold handleSearch
    rw [if_neg hq, if_pos (by simp [hc])]
  · intro found h
    cases h

/-- C4 (witness): the amended statement applied to a non-empty query and an
empty country selection over a non-empty dataset. -/
theorem claim_C4_witness :
    jsTrim ("BANDE Hama" : String).data ≠ [] ∧
    ({ query := "BANDE Hama" } : SearchParams).sourceCountries = [] ∧
    (handleSearch { query := "BANDE Hama" }
        [{ full_name := "BANDE Hama", source_country := "BF" }] []
      = ScreenOutcome.noListsSelected ∧
    ∀ found, ScreenOutcome.noListsSelected ≠ ScreenOutcome.results found) :=
  ⟨by decide, by decide, claim_C4 _ _ _ (by decide) (by decide)⟩

/-! ### The stable descending sort -/

theorem mem_insertByScoreDesc {a x : MatchResult} {l : List MatchResult} :
    a ∈ insertByScoreDesc x l ↔ a = x ∨ a ∈ l := by
  induction l with
  | nil => simp [insertByScoreDesc]
  | cons y ys ih =>
    simp only [insertByScoreDesc]
    split
    · simp [List.mem_cons]
    · simp only [List.mem_cons, ih]
      tauto

theorem mem_sortByScoreDesc {a : MatchResult} {l : List MatchResult} :
    a ∈ sortByScoreDesc l ↔ a ∈ l := by
  induction l with
  | nil => simp [sortByScoreDesc]
  | cons x xs ih => simp [sortByScoreDesc, mem_insertByScoreDesc, ih]

theorem pairwise_insertByScoreDesc {x : MatchResult} {l : List MatchResult}
    (h : l.Pairwise (fun a b => b.score ≤ a.score)) :
    (insertByScoreDesc x l).Pairwise (fun a b => b.score ≤ a.score) := by
  induction l with
  | nil => simp [insertByScoreDesc]
  | cons y ys ih =>
    rcases List.pairwise_cons.mp h with ⟨hy, hys⟩
    simp only [insertByScoreDesc]
    split
    next hge =>
      refine List.pairwise_cons.mpr ⟨?_, h⟩
      intro b hb
      rcases List.mem_cons.mp hb with rfl | hbys
      · exact hge
      · exact le_trans (hy b hbys) hge
    next hlt =>
      refine List.pairwise_cons.mpr ⟨?_, ih hys⟩
      intro b hb
      rcases mem_insertByScoreDesc.mp hb with rfl | hbys
      · exact le_of_lt (lt_of_not_ge hlt)
      · exact hy b hbys

theorem pairwise_sortByScoreDesc (l : List MatchResult) :
    (sortByScoreDesc l).Pairwise (fun a b => b.score ≤ a.score) := by
  induction l with
  | nil => simp [sortByScoreDesc]
  | cons x xs ih => exact pairwise_insertByScoreDesc ih

theorem filter_insertByScoreDesc (v : ℤ) (x : MatchResult) :
    ∀ l : List MatchResult, l.Pairwise (fun a b => b.score ≤ a.score) →
      (insertByScoreDesc x l).filter (fun r => r.score == v)
        = (x :: l).filter (fun r => r.score == v) := by
  intro l
  induction l with
  | nil => intro _; rfl
  | cons y ys ih =>
    intro h
    rcases List.pairwise_cons.mp h with ⟨hy, hys⟩
    simp only [insertByScoreDesc]
    split
    next hge => rfl
    next hlt =>
      have hxy : x.score < y.score := lt_of_not_ge hlt
      by_cases hx : x.score = v
      · have hyv : ¬ y.score = v := by omega
        simp only [List.filter_cons, ih hys, beq_iff_eq]
        simp [hx, hyv]
      · simp only [List.filter_cons, ih hys, beq_iff_eq]
        simp [hx]

theorem filter_sortByScoreDesc (v : ℤ) (l : List MatchResult) :
    (sortByScoreDesc l).filter (fun r => r.score == v)
      = l.filter (fun r => r.score == v) := by
  induction l with
  | nil => rfl
  | cons x xs ih =>
    show (insertByScoreDesc x (sortByScoreDesc xs)).filter _ = _
    rw [filter_insertByScoreDesc v x _ (pairwise_sortByScoreDesc xs)]
    rw [List.filter_cons, List.filter_cons, ih]

/-! ### Membership in the scan -/

theorem mem_scanPersons {params : SearchParams} {persons : List SanctionedPerson}
    {r : MatchResult} :
    r ∈ scanPersons params persons ↔
      ∃ p ∈ persons, params.sourceCountries.contains p.source_country = true ∧
        params.fuzzyThreshold ≤ (getBestMatchScore params.query p.full_name p.aliases).score ∧
        r = { item := MatchItem.person p
              score := (getBestMatchScore params.query p.full_name p.aliases).score
              matchedOn := (getBestMatchScore params.query p.full_name p.aliases).matchedOn } := by
  unfold scanPersons
  rw [List.mem_filterMap]
  constructor
  · rintro ⟨p, hp, hf⟩
    by_cases h1 : params.sourceCountries.contains p.source_country = true
    · rw [if_pos h1] at hf
      by_cases h2 : params.fuzzyThreshold
          ≤ (getBestMatchScore params.query p.full_name p.aliases).score
      · rw [if_pos h2] at hf
        exact ⟨p, hp, h1, h2, (Option.some_inj.mp hf).symm⟩
      · rw [if_neg h2] at hf
        cases hf
    · rw [if_neg h1] at hf
      cases hf
  · rintro ⟨p, hp, h1, h2, rfl⟩
    exact ⟨p, hp, by rw [if_pos h1, if_pos h2]⟩

theorem mem_scanEntities {params : SearchParams} {entities : List SanctionedEntity}
    {r : MatchResult} :
    r ∈ scanEntities params entities ↔
      ∃ e ∈ entities, params.sourceCountries.contains e.source_country = true ∧
        params.fuzzyThreshold ≤ (getBestMatchScore params.query e.name e.aliases).score ∧
        r = { item := MatchItem.entity e
              score := (getBestMatchScore params.query e.name e.aliases).score
              matchedOn := (getBestMatchScore params.query e.name e.aliases).matchedOn } := by
  unfold scanEntities
  rw [List.mem_filterMap]
  constructor
  · rintro ⟨e, he, hf⟩
    by_cases h1 : params.sourceCountries.contains e.source_country = true
    · rw [if_pos h1] at hf
      by_cases h2 : params.fuzzyThreshold
          ≤ (getBestMatchScore params.query e.name e.aliases).score
      · rw [if_pos h2] at hf
        exact ⟨e, he, h1, h2, (Option.some_inj.mp hf).symm⟩
      · rw [if_neg h2] at hf
        cases hf
    · rw [if_neg h1] at hf
      cases hf
  · rintro ⟨e, he, h1, h2, rfl⟩
    exact ⟨e, he, by rw [if_pos h1, if_pos h2]⟩

theorem mem_scanHits_person {params : SearchParams} {persons : List SanctionedPerson}
    {entities : List SanctionedEntity} {p : SanctionedPerson} {s : ℤ} {mo : MatchedOn} :
    ({ item := MatchItem.person p, score := s, matchedOn := mo } : MatchResult)
        ∈ scanHits params persons entities ↔
      ((params.targetType = .All ∨ params.targetType = .Person) ∧ p ∈ persons ∧
        params.sourceCountries.contains p.source_country = true ∧
        params.fuzzyThreshold ≤ (getBestMatchScore params.query p.full_name p.aliases).score ∧
        s = (getBestMatchScore params.query p.full_name p.aliases).score ∧
        mo = (getBestMatchScore params.query p.full_name p.aliases).matchedOn) := by
  unfold scanHits
  rw [List.mem_append]
  constructor
  · intro h
    rcases h with h | h
    · split at h
      next htt =>
        rcases mem_scanPersons.mp h with ⟨p', hp', h1, h2, heq⟩
        simp only [MatchResult.mk.injEq, MatchItem.person.injEq] at heq
        rcases heq with ⟨rfl, rfl, rfl⟩
        exact ⟨htt, hp', h1, h2, rfl, rfl⟩
      next => cases h
    · split at h
      next =>
        rcases mem_scanEntities.mp h with ⟨e, _, _, _, heq⟩
        simp only [MatchResult.mk.injEq] at heq
        exact absurd heq.1 (by intro hx; cases hx)
      next => cases h
  · rintro ⟨htt, hp, h1, h2, rfl, rfl⟩
    left
    rw [if_pos htt]
    exact mem_scanPersons.mpr ⟨p, hp, h1, h2, rfl⟩

theorem mem_scanHits_entity {params : SearchParams} {persons : List SanctionedPerson}
    {entities : List SanctionedEntity} {e : SanctionedEntity} {s : ℤ} {mo : MatchedOn} :
    ({ item := MatchItem.entity e, score := s, matchedOn := mo } : MatchResult)
        ∈ scanHits params persons entities ↔
      ((params.targetType = .All ∨ params.targetType = .Entity) ∧ e ∈ entities ∧
        params.sourceCountries.contains e.source_country = true ∧
        params.fuzzyThreshold ≤ (getBestMatchScore params.query e.name e.aliases).score ∧
        s = (getBestMatchScore params.query e.name e.aliases).score ∧
        mo = (getBestMatchScore params.query e.name e.aliases).matchedOn) := by
  unfold scanHits
  rw [List.mem_append]
  constructor
  · intro h
    rcases h with h | h
    · split at h
      next =>
        rcases mem_scanPersons.mp h with ⟨p, _, _, _, heq⟩
        simp only [MatchResult.mk.injEq] at heq
        exact absurd heq.1 (by intro hx; cases hx)
      next => cases h
    · split at h
      next htt =>
        rcases mem_scanEntities.mp h with ⟨e', he', h1, h2, heq⟩
        simp only [MatchResult.mk.injEq, MatchItem.entity.injEq] at heq
        rcases heq with ⟨rfl, rfl, rfl⟩
        exact ⟨htt, he', h1, h2, rfl, rfl⟩
      next => cases h
  · rintro ⟨htt, he, h1, h2, rfl, rfl⟩
    right
    rw [if_pos htt]
    exact mem_scanEntities.mpr ⟨e, he, h1, h2, rfl⟩

/-! ### Claims about the filter/threshold and ranking behaviour -/

/-- C1: on a validated call (non-empty trimmed query, non-empty country
filter) the result list contains exactly the subjects whose source country
is selected, whose variant is allowed by the target filter (`All` allows
both), and whose best-match score reaches the threshold (inclusive
boundary), each carried with its best score and matched-on field. -/
theorem claim_C1 (params : SearchParams) (persons : List SanctionedPerson)
    (entities : List SanctionedEntity)
    (hq : jsTrim params.query.data ≠ [])
    (hc : params.sourceCountries.length ≠ 0) :
    ∃ found, handleSearch params persons entities = ScreenOutcome.results found ∧
      (∀ p s mo,
        ({ item := MatchItem.person p, score := s, matchedOn := mo } : MatchResult) ∈ found ↔
          ((params.targetType = .All ∨ params.targetType = .Person) ∧ p ∈ persons ∧
            params.sourceCountries.contains p.source_country = true ∧
            s = (getBestMatchScore params.query p.full_name p.aliases).score ∧
            mo = (getBestMatchScore params.query p.full_name p.aliases).matchedOn ∧
            params.fuzzyThreshold ≤ s)) ∧
      (∀ e s mo,
        ({ item := MatchItem.entity e, score := s, matchedOn := mo } : MatchResult) ∈ found ↔
          ((params.targetType = .All ∨ params.targetType = .Entity) ∧ e ∈ entities ∧
            params.sourceCountries.contains e.source_country = true ∧
            s = (getBestMatchScore params.query e.name e.aliases).score ∧
            mo = (getBestMatchScore params.query e.name e.aliases).matchedOn ∧
            params.fuzzyThreshold ≤ s)) := by
  refine ⟨sortByScoreDesc (scanHits params persons entities), ?_, ?_, ?_⟩
  · unfold handleSearch
    rw [if_neg hq, if_neg hc]
  · intro p s mo
    rw [mem_sortByScoreDesc, mem_scanHits_person]
    constructor
    · rintro ⟨htt, hp, h1, h2, rfl, rfl⟩
      exact ⟨htt, hp, h1, rfl, rfl, h2⟩
    · rintro ⟨htt, hp, h1, rfl, rfl, h2⟩
      exact ⟨htt, hp, h1, h2, rfl, rfl⟩
  · intro e s mo
    rw [mem_sortByScoreDesc, mem_scanHits_entity]
    constructor
    · rintro ⟨htt, he, h1, h2, rfl, rfl⟩
      exact ⟨htt, he, h1, rfl, rfl, h2⟩
    · rintro ⟨htt, he, h1, rfl, rfl, h2⟩
      exact ⟨htt, he, h1, h2, rfl, rfl⟩

/-- C3: on a validated call the result list is sorted by descending score,
equal scores keep their scan order (stability, phrased as: filtering the
output on any fixed score gives the same list as filtering the unsorted
scan), and the outcome is a function of the inputs (re-running with the
same inputs gives the same list). -/
theorem claim_C3 (params : SearchParams) (persons : List SanctionedPerson)
    (entities : List SanctionedEntity)
    (hq : jsTrim params.query.data ≠ [])
    (hc : params.sourceCountries.length ≠ 0) :
    ∃ found, handleSearch params persons entities = ScreenOutcome.results found ∧
      found.Pairwise (fun a b => b.score ≤ a.score) ∧
      (∀ v : ℤ, found.filter (fun r => r.score == v)
        = (scanHits params persons entities).filter (fun r => r.score == v)) ∧
      (∀ found', handleSearch params persons entities = ScreenOutcome.results found'
        → found' = found) := by
  have hrun : handleSearch params persons entities
      = ScreenOutcome.results (sortByScoreDesc (scanHits params persons entities)) := by
    unfold handleSearch
    rw [if_neg hq, if_neg hc]
  refine ⟨sortByScoreDesc (scanHits params persons entities), hrun,
    pairwise_sortByScoreDesc _, fun v => filter_sortByScoreDesc v _, ?_⟩
  intro found' h'
  rw [hrun] at h'
  cases h'
  rfl

/-- C1 (witness): query `"abcdefgh"` at threshold 89 over two persons whose
best scores are exactly 89 (name `"abcdefghi"`, included at the boundary)
and 88 (name `"abcdefgx"`, excluded at threshold minus one). -/
theorem claim_C1_witness :
    jsTrim ("abcdefgh" : String).data ≠ [] ∧
    (["BF"] : List String).length ≠ 0 ∧
    (∃ found, handleSearch
        { query := "abcdefgh", targetType := .All, sourceCountries := ["BF"],
          fuzzyThreshold := 89 }
        [{ full_name := "abcdefghi", source_country := "BF" },
         { full_name := "abcdefgx", source_country := "BF" }] []
      = ScreenOutcome.results found) ∧
    (getBestMatchScore "abcdefgh" "abcdefghi" []).score = 89 ∧
    (getBestMatchScore "abcdefgh" "abcdefgx" []).score = 88 ∧
    handleSearch
        { query := "abcdefgh", targetType := .All, sourceCountries := ["BF"],
          fuzzyThreshold := 89 }
        [{ full_name := "abcdefghi", source_country := "BF" },
         { full_name := "abcdefgx", source_country := "BF" }] []
      = ScreenOutcome.results
        [{ item := MatchItem.person { full_name := "abcdefghi", source_country := "BF" },
           score := 89, matchedOn := MatchedOn.Name }] :=
  ⟨by decide, by decide,
    Exists.elim
      (claim_C1
        { query := "abcdefgh", targetType := .All, sourceCountries := ["BF"],
          fuzzyThreshold := 89 }
        [{ full_name := "abcdefghi", source_country := "BF" },
         { full_name := "abcdefgx", source_country := "BF" }] []
        (by decide) (by decide))
      (fun found h => ⟨found, h.1⟩),
    by decide, by decide, by decide⟩

/-- C3 (witness): two distinct persons with the same name tie at score 100;
the output is sorted, and the tie appears in scan order (id 1 before id 2). -/
theorem claim_C3_witness :
    jsTrim ("abc" : String).data ≠ [] ∧
    (["BF"] : List String).length ≠ 0 ∧
    (∃ found, handleSearch
        { query := "abc", targetType := .All, sourceCountries := ["BF"], fuzzyThreshold := 70 }
        [{ id := 1, full_name := "abc", source_country := "BF" },
         { id := 2, full_name := "abc", source_country := "BF" }] []
      = ScreenOutcome.results found ∧
      found.Pairwise (fun a b => b.score ≤ a.score)) ∧
    handleSearch
        { query := "abc", targetType := .All, sourceCountries := ["BF"], fuzzyThreshold := 70 }
        [{ id := 1, full_name := "abc", source_country := "BF" },
         { id := 2, full_name := "abc", source_country := "BF" }] []
      = ScreenOutcome.results
        [{ item := MatchItem.person { id := 1, full_name := "abc", source_country := "BF" },
           score := 100, matchedOn := MatchedOn.Name },
         { item := MatchItem.person { id := 2, full_name := "abc", source_country := "BF" },
           score := 100, matchedOn := MatchedOn.Name }] :=
  ⟨by decide, by decide,
    Exists.elim
      (claim_C3
        { query := "abc", targetType := .All, sourceCountries := ["BF"], fuzzyThreshold := 70 }
        [{ id := 1, full_name := "abc", source_country := "BF" },
         { id := 2, full_name := "abc", source_country := "BF" }] []
        (by decide) (by decide))
      (fun found h => ⟨found, h.1, h.2.1⟩),
    by decide⟩

/-! ### Character-level facts for idempotence of the normalizer -/

/-- Characters that can occur inside a normalized token: ASCII lowercase
letters and digits. -/
def isLowerAlnum (c : Char) : Prop :=
  (0x61 ≤ c.toNat ∧ c.toNat ≤ 0x7A) ∨ (0x30 ≤ c.toNat ∧ c.toNat ≤ 0x39)

theorem toLower_def (c : Char) :
    Char.toLower c = if c.toNat ≥ 65 ∧ c.toNat ≤ 90 then Char.ofNat (c.toNat + 32) else c :=
  rfl

theorem toNat_ofNat_of_lt {n : Nat} (h : n < 0xd800) : (Char.ofNat n).toNat = n := by
  have hv : n.isValidChar := Or.inl h
  unfold Char.ofNat
  rw [dif_pos hv]
  rfl

theorem toLower_eq_self {c : Char} (h : ¬(65 ≤ c.toNat ∧ c.toNat ≤ 90)) :
    Char.toLower c = c := by
  rw [toLower_def, if_neg h]

theorem toNat_toLower_of_upper {c : Char} (h1 : 65 ≤ c.toNat) (h2 : c.toNat ≤ 90) :
    (Char.toLower c).toNat = c.toNat + 32 := by
  rw [toLower_def, if_pos ⟨h1, h2⟩]
  exact toNat_ofNat_of_lt (by omega)

theorem isJsWhitespace_iff (c : Char) :
    isJsWhitespace c = true ↔
      (c.toNat = 0x20 ∨ c.toNat = 0x09 ∨ c.toNat = 0x0A ∨ c.toNat = 0x0B ∨
        c.toNat = 0x0C ∨ c.toNat = 0x0D ∨ c.toNat = 0xA0 ∨ c.toNat = 0x1680 ∨
        (0x2000 ≤ c.toNat ∧ c.toNat ≤ 0x200A) ∨ c.toNat = 0x2028 ∨ c.toNat = 0x2029 ∨
        c.toNat = 0x202F ∨ c.toNat = 0x205F ∨ c.toNat = 0x3000 ∨ c.toNat = 0xFEFF) := by
  unfold isJsWhitespace
  exact decide_eq_true_iff

theorem isKeptChar_iff (c : Char) :
    isKeptChar c = true ↔
      ((0x41 ≤ c.toNat ∧ c.toNat ≤ 0x5A) ∨ (0x61 ≤ c.toNat ∧ c.toNat ≤ 0x7A) ∨
        (0x30 ≤ c.toNat ∧ c.toNat ≤ 0x39)) ∨ isJsWhitespace c = true := by
  unfold isKeptChar isAsciiAlnum
  rw [Bool.or_eq_true, decide_eq_true_iff]

theorem lowerAlnum_not_ws {c : Char} (h : isLowerAlnum c) : isJsWhitespace c = false := by
  rcases h with h | h <;>
  · rw [Bool.eq_false_iff]
    intro hw
    rcases (isJsWhitespace_iff c).mp hw with h' | h' | h' | h' | h' | h' | h' | h' | h' | h' |
      h' | h' | h' | h' | h' <;> omega

theorem lowerAlnum_lt {c : Char} (h : isLowerAlnum c) : c.toNat < 0xC0 := by
  rcases h with h | h <;> omega

theorem space_or_lowerAlnum_facts {c : Char} (h : isLowerAlnum c ∨ c = ' ') :
    c.toNat < 0xC0 ∧ isCombiningMark c = false ∧ isKeptChar c = true ∧
      Char.toLower c = c := by
  have hn : c.toNat < 0xC0 ∧ ¬(65 ≤ c.toNat ∧ c.toNat ≤ 90) ∧
      (((0x41 ≤ c.toNat ∧ c.toNat ≤ 0x5A) ∨ (0x61 ≤ c.toNat ∧ c.toNat ≤ 0x7A) ∨
        (0x30 ≤ c.toNat ∧ c.toNat ≤ 0x39)) ∨ c.toNat = 0x20) := by
    rcases h with h | h
    · rcases h with h | h <;> exact ⟨by omega, by omega, by omega⟩
    · subst h
      refine ⟨by decide, by decide, by decide⟩
  refine ⟨hn.1, ?_, ?_, toLower_eq_self hn.2.1⟩
  · unfold isCombiningMark
    rw [decide_eq_false_iff_not]
    omega
  · rw [isKeptChar_iff]
    rcases hn.2.2 with h' | h'
    · exact Or.inl h'
    · exact Or.inr ((isJsWhitespace_iff c).mpr (Or.inl h'))

theorem nfdChar_ascii {c : Char} (h : c.toNat < 0xC0) : nfdChar c = [c] := by
  unfold nfdChar
  rw [if_pos h]

theorem kept_toLower_lowerAlnum_or_ws {c : Char} (h : isKeptChar c = true) :
    isLowerAlnum (Char.toLower c) ∨ isJsWhitespace (Char.toLower c) = true := by
  rcases (isKeptChar_iff c).mp h with h' | h'
  · rcases h' with h' | h'
    · left
      left
      rw [toNat_toLower_of_upper (by omega) (by omega)]
      omega
    · rcases h' with h' | h'
      · left
        rw [toLower_eq_self (by omega)]
        exact Or.inl h'
      · left
        rw [toLower_eq_self (by omega)]
        exact Or.inr h'
  · right
    have hno : ¬(65 ≤ c.toNat ∧ c.toNat ≤ 90) := by
      rcases (isJsWhitespace_iff c).mp h' with h'' | h'' | h'' | h'' | h'' | h'' | h'' | h'' |
        h'' | h'' | h'' | h'' | h'' | h'' | h'' <;> omega
    rw [toLower_eq_self hno]
    exact h'

/-! ### List helpers for idempotence -/

theorem flatMap_id_of_id {f : Char → List Char} :
    ∀ l : List Char, (∀ c ∈ l, f c = [c]) → l.flatMap f = l := by
  intro l
  induction l with
  | nil => intro _; rfl
  | cons x xs ih =>
    intro h
    rw [List.flatMap_cons, h x (by simp), ih (fun c hc => h c (by simp [hc]))]
    rfl

theorem map_id_of_id {f : Char → Char} :
    ∀ l : List Char, (∀ c ∈ l, f c = c) → l.map f = l := by
  intro l
  induction l with
  | nil => intro _; rfl
  | cons x xs ih =>
    intro h
    rw [List.map_cons, h x (by simp), ih (fun c hc => h c (by simp [hc]))]

theorem getLastD_append (l1 : List Char) :
    ∀ (c : Char) (t : List Char) (d : Char),
      (l1 ++ c :: t).getLastD d = (c :: t).getLastD d := by
  induction l1 with
  | nil => intro c t d; rfl
  | cons x l1 ih =>
    intro c t d
    rw [List.cons_append, List.getLastD_cons, ih, List.getLastD_cons, List.getLastD_cons]

theorem getLastD_irrel {x : Char} {xs : List Char} (d d' : Char) :
    (x :: xs).getLastD d = (x :: xs).getLastD d' := by
  rw [List.getLastD_cons, List.getLastD_cons]

theorem getLastD_reverse (l : List Char) (d : Char) :
    l.reverse.getLastD d = l.headD d := by
  cases l with
  | nil => rfl
  | cons x xs =>
    rw [List.reverse_cons]
    have := getLastD_append xs.reverse x [] d
    rw [this]
    rfl

theorem headD_reverse (l : List Char) (d : Char) :
    l.reverse.headD d = l.getLastD d := by
  have := getLastD_reverse l.reverse d
  rw [List.reverse_reverse] at this
  exact this.symm

theorem getLastD_mem : ∀ (l : List Char) (d : Char), l ≠ [] → l.getLastD d ∈ l := by
  intro l
  induction l with
  | nil => intro d h; exact absurd rfl h
  | cons x xs ih =>
    intro d _
    rw [List.getLastD_cons]
    cases xs with
    | nil => simp
    | cons y ys =>
      exact List.mem_cons_of_mem x (ih x (by simp))

theorem dropWhile_head_not (p : Char → Bool) :
    ∀ (l : List Char) (c : Char) (t : List Char), l.dropWhile p = c :: t → p c = false := by
  intro l
  induction l with
  | nil => intro c t h; cases h
  | cons x xs ih =>
    intro c t h
    rw [List.dropWhile_cons] at h
    split at h
    · exact ih c t h
    next hx =>
      cases h
      exact Bool.not_eq_true _ ▸ (by simpa using hx)

theorem mem_dropWhile {p : Char → Bool} {x : Char} {l : List Char}
    (h : x ∈ l.dropWhile p) : x ∈ l :=
  (List.dropWhile_sublist p).subset h

theorem getLastD_dropWhile (p : Char → Bool) (l : List Char) (d : Char)
    (h : l.dropWhile p ≠ []) : (l.dropWhile p).getLastD d = l.getLastD d := by
  obtain ⟨c, t, hct⟩ : ∃ c t, l.dropWhile p = c :: t := by
    cases hd : l.dropWhile p with
    | nil => exact absurd hd h
    | cons c t => exact ⟨c, t, rfl⟩
  conv_rhs => rw [← List.takeWhile_append_dropWhile p l]
  rw [hct, getLastD_append]

/-! ### Properties of the trimmed list -/

theorem jsTrim_subset {x : Char} {l : List Char} (h : x ∈ jsTrim l) : x ∈ l := by
  unfold jsTrim at h
  rw [List.mem_reverse] at h
  have h2 := mem_dropWhile h
  rw [List.mem_reverse] at h2
  exact mem_dropWhile h2

theorem jsTrim_head_not_ws {l : List Char} {c : Char} {t : List Char}
    (h : jsTrim l = c :: t) : isJsWhitespace c = false := by
  unfold jsTrim at h
  set d1 := l.dropWhile isJsWhitespace with hd1
  set d2 := d1.reverse.dropWhile isJsWhitespace with hd2
  have hd2ne : d2 ≠ [] := by
    intro hnil
    rw [hnil] at h
    cases h
  have hc : c = d2.reverse.headD ' ' := by
    rw [h]
    rfl
  rw [headD_reverse] at hc
  have hlast : d2.getLastD ' ' = d1.reverse.getLastD ' ' :=
    getLastD_dropWhile isJsWhitespace d1.reverse ' ' (hd2 ▸ hd2ne)
  rw [hlast, getLastD_reverse] at hc
  obtain ⟨e, u, he⟩ : ∃ e u, d1 = e :: u := by
    cases hd : d1 with
    | nil =>
      rw [hd] at hd2
      simp at hd2
      exact absurd hd2 hd2ne
    | cons e u => exact ⟨e, u, rfl⟩
  rw [he] at hc
  simp only [List.headD_cons] at hc
  rw [hc]
  exact dropWhile_head_not isJsWhitespace l e u (hd1 ▸ he)

theorem jsTrim_last_not_ws {l : List Char} {c : Char} {t : List Char}
    (h : jsTrim l = c :: t) : isJsWhitespace ((c :: t).getLastD ' ') = false := by
  unfold jsTrim at h
  set d1 := l.dropWhile isJsWhitespace with hd1
  set d2 := d1.reverse.dropWhile isJsWhitespace with hd2
  obtain ⟨e, u, he⟩ : ∃ e u, d2 = e :: u := by
    cases hd : d2 with
    | nil =>
      rw [hd] at h
      cases h
    | cons e u => exact ⟨e, u, rfl⟩
  have hlast : (c :: t).getLastD ' ' = d2.headD ' ' := by
    rw [← h, ← getLastD_reverse]
  rw [hlast, he, List.headD_cons]
  exact dropWhile_head_not isJsWhitespace d1.reverse e u (hd2 ▸ he)

theorem jsTrim_of_not_ws {l : List Char}
    (hhead : ∀ c cs, l = c :: cs → isJsWhitespace c = false)
    (hlast : l ≠ [] → isJsWhitespace (l.getLastD ' ') = false) : jsTrim l = l := by
  cases l with
  | nil => rfl
  | cons c cs =>
    have hc := hhead c cs rfl
    have hl := hlast (by simp)
    unfold jsTrim
    rw [List.dropWhile_cons, if_neg (by simp [hc])]
    obtain ⟨d, ds, hrev⟩ : ∃ d ds, (c :: cs).reverse = d :: ds := by
      cases hr : (c :: cs).reverse with
      | nil => simp at hr
      | cons d ds => exact ⟨d, ds, rfl⟩
    have hd : isJsWhitespace d = false := by
      have : d = (c :: cs).reverse.headD ' ' := by rw [hrev]; rfl
      rw [headD_reverse] at this
      rw [this]
      exact hl
    rw [hrev, List.dropWhile_cons, if_neg (by simp [hd]), ← hrev, List.reverse_reverse]

/-! ### Properties of the whitespace splitter -/

theorem splitWsAux_ne_nil : ∀ (l acc : List Char) (b : Bool), splitWsAux l acc b ≠ [] := by
  intro l
  induction l with
  | nil => intro acc b h; cases h
  | cons c rest ih =>
    intro acc b
    simp only [splitWsAux]
    split
    · split
      · exact ih acc true
      · intro h; cases h
    · exact ih (c :: acc) false

/-- Invariant proof: when the input has a non-whitespace first and last
character and every character is either whitespace or satisfies `Q`, all
produced tokens are non-empty and consist of non-whitespace `Q`-characters. -/
theorem splitWsAux_tokens (Q : Char → Prop) :
    ∀ (l acc : List Char) (b : Bool),
      (∀ c ∈ l, Q c ∨ isJsWhitespace c = true) →
      (∀ c ∈ acc, Q c ∧ isJsWhitespace c = false) →
      (l = [] → acc ≠ []) →
      (l ≠ [] → isJsWhitespace (l.getLastD ' ') = false) →
      (acc = [] → b = false → ∃ c t, l = c :: t ∧ isJsWhitespace c = false) →
      ∀ tok ∈ splitWsAux l acc b, tok ≠ [] ∧ ∀ c ∈ tok, Q c ∧ isJsWhitespace c = false := by
  intro l
  induction l with
  | nil =>
    intro acc b _ hacc hnil _ _ tok htok
    simp only [splitWsAux, List.mem_singleton] at htok
    subst htok
    refine ⟨by simpa using hnil rfl, ?_⟩
    intro c hc
    exact hacc c (List.mem_reverse.mp hc)
  | cons c rest ih =>
    intro acc b hchars hacc _ hlast hstart tok htok
    have hrest_last : rest ≠ [] → isJsWhitespace (rest.getLastD ' ') = false := by
      intro hne
      obtain ⟨r0, r1, hr⟩ : ∃ r0 r1, rest = r0 :: r1 := by
        cases hr : rest with
        | nil => exact absurd hr hne
        | cons r0 r1 => exact ⟨r0, r1, rfl⟩
      have hl2 := hlast (by simp)
      rw [List.getLastD_cons, hr, getLastD_irrel c ' '] at hl2
      rw [hr]
      exact hl2
    by_cases hws : isJsWhitespace c = true
    · have hrest_ne : rest ≠ [] := by
        intro hnil
        subst hnil
        have hl2 := hlast (by simp)
        simp only [List.getLastD_cons, List.getLastD_nil] at hl2
        rw [hws] at hl2
        cases hl2
      simp only [splitWsAux, if_pos hws] at htok
      split at htok
      · exact ih acc true (fun x hx => hchars x (by simp [hx])) hacc
          (fun h => absurd h hrest_ne) hrest_last (by intro _ h; cases h) tok htok
      next hb =>
        have haccne : acc ≠ [] := by
          intro hnil
          rcases hstart hnil (by simpa using hb) with ⟨c', t', hct, hcw⟩
          cases hct
          rw [hws] at hcw
          cases hcw
        rcases List.mem_cons.mp htok with rfl | htok
        · refine ⟨by simpa using haccne, ?_⟩
          intro x hx
          exact hacc x (List.mem_reverse.mp hx)
        · exact ih [] true (fun x hx => hchars x (by simp [hx])) (by intro x hx; cases hx)
            (fun h => absurd h hrest_ne) hrest_last (by intro _ h; cases h) tok htok
    · have hq : Q c := by
        rcases hchars c (by simp) with h | h
        · exact h
        · exact absurd h hws
      simp only [splitWsAux, if_neg hws] at htok
      refine ih (c :: acc) false (fun x hx => hchars x (by simp [hx])) ?_
        (fun _ => List.cons_ne_nil c acc) hrest_last (by intro h; cases h) tok htok
      intro x hx
      rcases List.mem_cons.mp hx with rfl | hx
      · exact ⟨hq, by simpa using hws⟩
      · exact hacc x hx

theorem splitWsAux_append_token :
    ∀ (tok rest acc : List Char) (b : Bool), tok ≠ [] →
      (∀ c ∈ tok, isJsWhitespace c = false) →
      splitWsAux (tok ++ rest) acc b = splitWsAux rest (tok.reverse ++ acc) false := by
  intro tok
  induction tok with
  | nil => intro rest acc b h; exact absurd rfl h
  | cons c cs ih =>
    intro rest acc b _ hws
    have hc : isJsWhitespace c = false := hws c (by simp)
    rw [List.cons_append]
    simp only [splitWsAux, hc]
    simp only [Bool.false_eq_true, if_false]
    by_cases hcs : cs = []
    · subst hcs
      simp
    · rw [ih rest (c :: acc) false hcs (fun x hx => hws x (by simp [hx]))]
      simp [List.reverse_cons, List.append_assoc]

theorem splitWsAux_flag_irrel {c : Char} (rest acc : List Char)
    (hc : isJsWhitespace c = false) (b b' : Bool) :
    splitWsAux (c :: rest) acc b = splitWsAux (c :: rest) acc b' := by
  simp only [splitWsAux, hc]
  simp

theorem joinTokens_head (c : Char) (cs : List Char) (ts : List (List Char)) :
    ∃ r, joinTokens ((c :: cs) :: ts) = c :: r := by
  cases ts with
  | nil => exact ⟨cs, rfl⟩
  | cons t' ts' => exact ⟨cs ++ ' ' :: joinTokens (t' :: ts'), rfl⟩

theorem jsSplit_joinTokens :
    ∀ ts : List (List Char), ts ≠ [] →
      (∀ tok ∈ ts, tok ≠ [] ∧ ∀ c ∈ tok, isJsWhitespace c = false) →
      jsSplitWs (joinTokens ts) = ts := by
  have main : ∀ ts : List (List Char), ts ≠ [] →
      (∀ tok ∈ ts, tok ≠ [] ∧ ∀ c ∈ tok, isJsWhitespace c = false) →
      splitWsAux (joinTokens ts) [] false = ts := by
    intro ts
    induction ts with
    | nil => intro h; exact absurd rfl h
    | cons t ts ih =>
      intro _ hts
      rcases hts t (by simp) with ⟨htne, htws⟩
      cases ts with
      | nil =>
        show splitWsAux (joinTokens [t]) [] false = [t]
        have : joinTokens [t] = t := rfl
        rw [this, ← List.append_nil t, splitWsAux_append_token t [] [] false htne htws]
        simp [splitWsAux]
      | cons t' ts' =>
        show splitWsAux (t ++ ' ' :: joinTokens (t' :: ts')) [] false = t :: t' :: ts'
        rw [splitWsAux_append_token t _ [] false htne htws]
        have hsp : isJsWhitespace ' ' = true := by decide
        simp only [splitWsAux, hsp, if_pos]
        simp only [Bool.false_eq_true, if_false, List.append_nil, List.reverse_reverse]
        rcases hts t' (by simp) with ⟨ht'ne, ht'ws⟩
        obtain ⟨c, cs, hc⟩ : ∃ c cs, t' = c :: cs := by
          cases h : t' with
          | nil => exact absurd h ht'ne
          | cons c cs => exact ⟨c, cs, rfl⟩
        obtain ⟨r, hr⟩ := joinTokens_head c cs ts'
        rw [← hc] at hr
        rw [hr, splitWsAux_flag_irrel r [] (by subst hc; exact ht'ws c (by simp)) true false,
          ← hr]
        rw [ih (by simp) (fun tok htok => hts tok (by simp [htok]))]
  intro ts h1 h2
  exact main ts h1 h2

/-! ### Properties of the token sort -/

theorem lexLe_total : ∀ a b : List Char, lexLe a b = true ∨ lexLe b a = true := by
  intro a
  induction a with
  | nil => intro b; left; rfl
  | cons x xs ih =>
    intro b
    cases b with
    | nil => right; rfl
    | cons y ys =>
      by_cases h1 : x.toNat < y.toNat
      · left
        simp only [lexLe, if_pos h1]
      · by_cases h2 : y.toNat < x.toNat
        · right
          simp only [lexLe, if_pos h2]
        · rcases ih ys with h | h
          · left
            simp only [lexLe, if_neg h1, if_neg h2]
            exact h
          · right
            simp only [lexLe, if_neg h2, if_neg h1]
            exact h

theorem mem_insertToken {a x : List Char} {l : List (List Char)} :
    a ∈ insertToken x l ↔ a = x ∨ a ∈ l := by
  induction l with
  | nil => simp [insertToken]
  | cons y ys ih =>
    simp only [insertToken]
    split
    · simp [List.mem_cons]
    · simp only [List.mem_cons, ih]
      tauto

theorem mem_sortTokens {a : List Char} {l : List (List Char)} :
    a ∈ sortTokens l ↔ a ∈ l := by
  induction l with
  | nil => simp [sortTokens]
  | cons x xs ih => simp [sortTokens, mem_insertToken, ih]

theorem sortTokens_ne_nil {l : List (List Char)} (h : l ≠ []) : sortTokens l ≠ [] := by
  cases l with
  | nil => exact absurd rfl h
  | cons x xs =>
    show insertToken x (sortTokens xs) ≠ []
    cases hs : sortTokens xs with
    | nil => simp [insertToken]
    | cons y ys =>
      simp only [insertToken]
      split
      · simp
      · simp

theorem chain'_insertToken (x : List Char) :
    ∀ l, List.Chain' (fun a b => lexLe a b = true) l →
      List.Chain' (fun a b => lexLe a b = true) (insertToken x l) := by
  intro l
  induction l with
  | nil => intro _; simp [insertToken]
  | cons y ys ih =>
    intro h
    simp only [insertToken]
    split
    next hxy => exact List.Chain'.cons hxy h
    next hxy =>
      have hyx : lexLe y x = true := (lexLe_total x y).resolve_left hxy
      have htail := ih h.tail
      apply List.chain'_cons'.mpr
      refine ⟨?_, htail⟩
      intro z hz
      cases ys with
      | nil =>
        simp [insertToken] at hz
        rw [← hz]
        exact hyx
      | cons w ws =>
        simp only [insertToken] at hz
        split at hz
        · simp only [List.head?_cons, Option.mem_def, Option.some_inj] at hz
          rw [← hz]
          exact hyx
        · simp only [List.head?_cons, Option.mem_def, Option.some_inj] at hz
          rw [← hz]
          exact (List.chain'_cons.mp h).1

theorem chain'_sortTokens (l : List (List Char)) :
    List.Chain' (fun a b => lexLe a b = true) (sortTokens l) := by
  induction l with
  | nil => simp [sortTokens]
  | cons x xs ih => exact chain'_insertToken x _ ih

theorem sortTokens_of_chain' :
    ∀ l, List.Chain' (fun a b => lexLe a b = true) l → sortTokens l = l := by
  intro l
  induction l with
  | nil => intro _; rfl
  | cons x xs ih =>
    intro h
    show insertToken x (sortTokens xs) = x :: xs
    rw [ih h.tail]
    cases xs with
    | nil => rfl
    | cons y ys =>
      have hxy : lexLe x y = true := (List.chain'_cons.mp h).1
      simp [insertToken, hxy]

/-! ### Characters of the joined output -/

theorem mem_joinTokens :
    ∀ (ts : List (List Char)) (c : Char), c ∈ joinTokens ts →
      (∃ tok ∈ ts, c ∈ tok) ∨ c = ' ' := by
  intro ts
  induction ts with
  | nil => intro c h; cases h
  | cons t ts ih =>
    intro c h
    cases ts with
    | nil =>
      left
      exact ⟨t, by simp, h⟩
    | cons t' ts' =>
      rcases List.mem_append.mp h with h | h
      · left
        exact ⟨t, by simp, h⟩
      · rcases List.mem_cons.mp h with rfl | h
        · right
          rfl
        · rcases ih c h with ⟨tok, htok, hc⟩ | rfl
          · left
            exact ⟨tok, by simp [htok], hc⟩
          · right
            rfl

theorem joinTokens_getLastD :
    ∀ ts : List (List Char), ts ≠ [] → (∀ tok ∈ ts, tok ≠ []) →
      ∃ tok ∈ ts, tok ≠ [] ∧ ∀ d, (joinTokens ts).getLastD d = tok.getLastD d := by
  intro ts
  induction ts with
  | nil => intro h; exact absurd rfl h
  | cons t ts ih =>
    intro _ hne
    cases ts with
    | nil => exact ⟨t, by simp, hne t (by simp), fun d => rfl⟩
    | cons t' ts' =>
      rcases ih (by simp) (fun tok htok => hne tok (by simp [htok]))
        with ⟨tok, htok, htokne, hlast⟩
      refine ⟨tok, by simp [htok], htokne, ?_⟩
      intro d
      show (t ++ ' ' :: joinTokens (t' :: ts')).getLastD d = tok.getLastD d
      rw [getLastD_append, List.getLastD_cons, hlast ' ']
      obtain ⟨e, u, he⟩ : ∃ e u, tok = e :: u := by
        cases h : tok with
        | nil => exact absurd h htokne
        | cons e u => exact ⟨e, u, rfl⟩
      rw [he]
      exact getLastD_irrel ' ' d

/-- C9: normalization is idempotent; applying the normalizer a second time
to an already-normalized key changes nothing. -/
theorem claim_C9 (s : String) :
    normalizeString (normalizeString s) = normalizeString s := by
  by_cases hs : s = ""
  · subst hs
    rfl
  · have hform : normalizeString s = String.mk (joinTokens (normalizedTokens s)) := by
      unfold normalizeString
      rw [if_neg hs]
    set lowered := (((s.data.flatMap nfdChar).filter (fun c => !isCombiningMark c)).filter
      isKeptChar).map Char.toLower with hlow
    have hlowchars : ∀ c ∈ lowered, isLowerAlnum c ∨ isJsWhitespace c = true := by
      intro c hc
      rw [hlow] at hc
      rcases List.mem_map.mp hc with ⟨c', hc', rfl⟩
      exact kept_toLower_lowerAlnum_or_ws (List.mem_filter.mp hc').2
    set trimmed := jsTrim lowered with htrm
    have htrimchars : ∀ c ∈ trimmed, isLowerAlnum c ∨ isJsWhitespace c = true := by
      intro c hc
      exact hlowchars c (jsTrim_subset hc)
    have htok : normalizedTokens s = sortTokens (jsSplitWs trimmed) := by
      rw [htrm, hlow]
      rfl
    rw [hform, htok]
    by_cases htr : trimmed = []
    · rw [htr]
      rfl
    · obtain ⟨c0, t0, htr0⟩ : ∃ c0 t0, trimmed = c0 :: t0 := by
        cases h : trimmed with
        | nil => exact absurd h htr
        | cons c0 t0 => exact ⟨c0, t0, rfl⟩
      have hsplitToks : ∀ tok ∈ splitWsAux trimmed [] false,
          tok ≠ [] ∧ ∀ c ∈ tok, isLowerAlnum c ∧ isJsWhitespace c = false := by
        apply splitWsAux_tokens isLowerAlnum trimmed [] false htrimchars
        · intro x hx
          cases hx
        · intro h
          exact absurd h htr
        · intro _
          rw [htr0]
          exact jsTrim_last_not_ws htr0
        · intro _ _
          exact ⟨c0, t0, htr0, jsTrim_head_not_ws htr0⟩
      set toks := jsSplitWs trimmed with htoks
      set ts := sortTokens toks with hts
      have hts_tok : ∀ tok ∈ ts, tok ≠ [] ∧
          ∀ c ∈ tok, isLowerAlnum c ∧ isJsWhitespace c = false := by
        intro tok htk
        exact hsplitToks tok (mem_sortTokens.mp (hts ▸ htk))
      have hts_ne : ts ≠ [] := by
        rw [hts, htoks]
        exact sortTokens_ne_nil (splitWsAux_ne_nil trimmed [] false)
      set J := joinTokens ts with hJ
      have hJfacts : ∀ c ∈ J, c.toNat < 0xC0 ∧ isCombiningMark c = false ∧
          isKeptChar c = true ∧ Char.toLower c = c := by
        intro c hc
        apply space_or_lowerAlnum_facts
        rcases mem_joinTokens ts c (hJ ▸ hc) with ⟨tok, htk, hctok⟩ | rfl
        · exact Or.inl ((hts_tok tok htk).2 c hctok).1
        · exact Or.inr rfl
      obtain ⟨tk, ts', htssplit⟩ : ∃ tk ts', ts = tk :: ts' := by
        cases h : ts with
        | nil => exact absurd h hts_ne
        | cons tk ts' => exact ⟨tk, ts', rfl⟩
      obtain ⟨e, u, htk0⟩ : ∃ e u, tk = e :: u := by
        cases h : tk with
        | nil => exact absurd h (hts_tok tk (by rw [htssplit]; simp)).1
        | cons e u => exact ⟨e, u, rfl⟩
      obtain ⟨r, hJhead⟩ : ∃ r, J = e :: r := by
        rw [hJ, htssplit, htk0]
        exact joinTokens_head e u ts'
      have hwse : isJsWhitespace e = false :=
        ((hts_tok tk (by rw [htssplit]; simp)).2 e (by rw [htk0]; simp)).2
      have hhead : ∀ c cs, J = c :: cs → isJsWhitespace c = false := by
        intro c cs hcc
        rw [hJhead] at hcc
        injection hcc with h1 _
        rw [← h1]
        exact hwse
      have hlast : J ≠ [] → isJsWhitespace (J.getLastD ' ') = false := by
        intro _
        rcases joinTokens_getLastD ts hts_ne (fun tok htk => (hts_tok tok htk).1)
          with ⟨tok, htk, htokne, hl⟩
        rw [hJ, hl ' ']
        exact ((hts_tok tok htk).2 _ (getLastD_mem tok ' ' htokne)).2
      have hTne : String.mk J ≠ "" := by
        rw [Ne, string_eq_empty_iff]
        show ¬ J = []
        rw [hJhead]
        simp
      unfold normalizeString
      rw [if_neg hTne]
      refine congrArg String.mk ?_
      unfold normalizedTokens
      show joinTokens (sortTokens (jsSplitWs (jsTrim ((((J.flatMap nfdChar).filter
        (fun c => !isCombiningMark c)).filter isKeptChar).map Char.toLower)))) = J
      rw [flatMap_id_of_id J (fun c hc => nfdChar_ascii (hJfacts c hc).1)]
      have hfilter1 : J.filter (fun c => !isCombiningMark c) = J :=
        List.filter_eq_self.mpr (fun c hc => by simp [(hJfacts c hc).2.1])
      rw [hfilter1]
      have hfilter2 : J.filter isKeptChar = J :=
        List.filter_eq_self.mpr (fun c hc => (hJfacts c hc).2.2.1)
      rw [hfilter2]
      rw [map_id_of_id J (fun c hc => (hJfacts c hc).2.2.2)]
      rw [jsTrim_of_not_ws hhead hlast]
      rw [hJ]
      rw [jsSplit_joinTokens ts hts_ne (fun tok htk =>
        ⟨(hts_tok tok htk).1, fun c hc => ((hts_tok tok htk).2 c hc).2⟩)]
      rw [hts]
      rw [sortTokens_of_chain' (sortTokens toks) (chain'_sortTokens toks)]

end AfricanScreening
